import Mathlib

/-!
Shallow embedding of `libraries/chain_kv/include/b1/session/undo_stack.hpp`
(`eosio::session::undo_stack<Session>`), together with the session-layer
contract it consumes.

The undo stack owns an ordered sequence of diff layers ("sessions") over a
base key-value store (the head).  Each layer holds a parent link, mirrored
here by a stable identifier (`sid`), because the C++ sessions hold raw
parent pointers into the deque.  The session layer type itself
(`b1/session/session.hpp`) is not part of the provided sources, so its
operations are modelled from the spec's SessionLayer contract.  File-system
interaction (`fc::` path and file functions) is likewise modelled from the
spec as an explicit `fs_state`.
-/

abbrev Key := Nat
abbrev Val := Nat

/-- The head key-value store (external collaborator of the undo stack). -/
abbrev Store := Key → Option Val

/-- Modelled from the spec: the SessionLayer contract (`session.hpp` is
outside the provided sources).  A layer records its own pending writes and
erasures and holds exactly one parent link: detached (`none`), the head
store (`some (Sum.inl ())`), or another layer identified by its stable id
(`some (Sum.inr sid)`), mirroring the parent pointer held by the C++
session. -/
structure session_type where
  parent  : Option (Sum Unit Nat)
  sid     : Nat
  writes  : List (Key × Val)
  deletes : List Key
deriving DecidableEq

/-- Modelled from the spec: `write(key,value)` records a local pending
write, replacing any previous pending write or erasure of that key. -/
def session_write (s : session_type) (k : Key) (v : Val) : session_type :=
  { s with writes := (k, v) :: s.writes.filter (fun p => p.1 != k),
           deletes := s.deletes.filter (fun k2 => k2 != k) }

/-- Modelled from the spec: `erase(key)` records a local pending erasure,
replacing any previous pending write or erasure of that key. -/
def session_erase (s : session_type) (k : Key) : session_type :=
  { s with writes := s.writes.filter (fun p => p.1 != k),
           deletes := k :: s.deletes.filter (fun k2 => k2 != k) }

/-- Modelled from the spec: the layer's own resolution of a key:
`some (some v)` = pending write of `v`, `some none` = pending erasure,
`none` = untouched by this layer (a read falls through to the parent). -/
def session_local (s : session_type) (k : Key) : Option (Option Val) :=
  match s.writes.find? (fun p => p.1 == k) with
  | some p => some (some p.2)
  | none => if k ∈ s.deletes then some none else none

/-- Modelled from the spec: `updated_keys()` enumerates this layer's own
pending writes. -/
def updated_keys (s : session_type) : List Key := s.writes.map Prod.fst

/-- Modelled from the spec: `deleted_keys()` enumerates this layer's own
pending erasures. -/
def deleted_keys (s : session_type) : List Key := s.deletes

/-- Modelled from the spec: `detach()` severs the parent link. -/
def session_detach (s : session_type) : session_type := { s with parent := none }

/-- Modelled from the spec: `attach(*m_head)` sets the head store as
parent. -/
def session_attach_head (s : session_type) : session_type :=
  { s with parent := some (Sum.inl ()) }

/-- Modelled from the spec: `session::commit()` empties the layer's local
diff after folding it into the parent. -/
def session_clear (s : session_type) : session_type :=
  { s with writes := [], deletes := [] }

def store_write (st : Store) (k : Key) (v : Val) : Store :=
  fun k2 => if k2 = k then some v else st k2

def store_erase (st : Store) (k : Key) : Store :=
  fun k2 => if k2 = k then none else st k2

/-- Modelled from the spec: `session::commit()` folding the layer's pending
changes into the head store (the case where the head is its parent). -/
def merge_into_store (st : Store) (s : session_type) : Store :=
  s.deletes.foldl store_erase (s.writes.foldl (fun a p => store_write a p.1 p.2) st)

/-- Modelled from the spec: `session::commit()` folding the layer's pending
changes into its parent layer. -/
def merge_into_session (p : session_type) (s : session_type) : session_type :=
  s.deletes.foldl session_erase (s.writes.foldl (fun a q => session_write a q.1 q.2) p)

/-- The undo stack state (`undo_stack<Session>` data members).  `m_next_id`
is the allocator for the stable session identities standing in for the C++
object addresses; `m_datadir` is the optional persistence directory. -/
structure undo_stack where
  m_revision : Int
  m_head : Store
  m_sessions : List session_type
  m_next_id : Nat
  m_datadir : Option String

/-- The state of a freshly constructed `undo_stack` before the constructor
runs `open()`: `m_revision{0}` and an empty session sequence. -/
def undo_stack.fresh (head : Store) (datadir : Option String) : undo_stack :=
  { m_revision := 0, m_head := head, m_sessions := [], m_next_id := 0,
    m_datadir := datadir }

/-- `undo_stack::push`: a new session is emplaced at the back, parented to
the head when the stack was empty and to the previous back otherwise;
`++m_revision`. -/
def undo_stack.push (u : undo_stack) : undo_stack :=
  let s : session_type :=
    match u.m_sessions.getLast? with
    | none => { parent := some (Sum.inl ()), sid := u.m_next_id, writes := [], deletes := [] }
    | some b => { parent := some (Sum.inr b.sid), sid := u.m_next_id, writes := [], deletes := [] }
  { u with m_sessions := u.m_sessions ++ [s],
           m_next_id := u.m_next_id + 1,
           m_revision := u.m_revision + 1 }

/-- `m_sessions[i].commit()`: the session at position `i` folds its pending
changes into whatever its parent pointer designates, then its local diff is
emptied.  Out-of-range accesses leave the state unchanged (they never occur
in the source; see the bounds claim). -/
def apply_to_parent (u : undo_stack) (s : session_type) : undo_stack :=
  match s.parent with
  | some (Sum.inl _) => { u with m_head := merge_into_store u.m_head s }
  | some (Sum.inr pid) =>
      { u with m_sessions :=
          u.m_sessions.map (fun t => if t.sid = pid then merge_into_session t s else t) }
  | none => u

def stack_commit_at (u : undo_stack) (i : Nat) : undo_stack :=
  match u.m_sessions[i]? with
  | none => u
  | some s =>
      let u2 := apply_to_parent u s
      { u2 with m_sessions :=
          u2.m_sessions.map (fun t => if t.sid = s.sid then session_clear t else t) }

/-- `undo_stack::squash`: no-op when empty, else the back session commits
into its parent, is detached and popped, and `--m_revision`. -/
def undo_stack.squash (u : undo_stack) : undo_stack :=
  if u.m_sessions.isEmpty then u
  else
    let u2 := stack_commit_at u (u.m_sessions.length - 1)
    { u2 with m_sessions := u2.m_sessions.dropLast, m_revision := u2.m_revision - 1 }

/-- `undo_stack::undo`: no-op when empty, else the back session is detached
and popped (its pending diff discarded), and `--m_revision`. -/
def undo_stack.undo (u : undo_stack) : undo_stack :=
  if u.m_sessions.isEmpty then u
  else { u with m_sessions := u.m_sessions.dropLast, m_revision := u.m_revision - 1 }

/-- `initial_revision = static_cast<int64_t>(m_revision - m_sessions.size() + 1)`. -/
def undo_stack.initial_revision (u : undo_stack) : Int :=
  u.m_revision - u.m_sessions.length + 1

/-- `start_index = revision - initial_revision` after the clamp
`revision = std::min(revision, m_revision)`. -/
def undo_stack.start_index (u : undo_stack) (revision : Int) : Int :=
  min revision u.m_revision - u.initial_revision

/-- The descending commit loop
`for (int64_t i = start_index; i >= 0; --i) m_sessions[i].commit();`. -/
def commit_loop (u : undo_stack) : Nat → undo_stack
  | 0 => stack_commit_at u 0
  | n + 1 => commit_loop (stack_commit_at u (n + 1)) n

/-- `undo_stack::commit(revision)` translated from the source. -/
def undo_stack.commit (u : undo_stack) (revision : Int) : undo_stack :=
  if u.m_sessions.isEmpty then u
  else if u.initial_revision > min revision u.m_revision then u
  else
    let n : Nat := (u.start_index revision).toNat
    let u2 := commit_loop u n
    let u3 := { u2 with m_sessions := u2.m_sessions.drop (n + 1) }
    match u3.m_sessions with
    | [] => u3
    | f :: rest => { u3 with m_sessions := session_attach_head f :: rest }

/-- `undo_stack::revision()` getter. -/
def undo_stack.revision (u : undo_stack) : Int := u.m_revision

/-- `undo_stack::revision(int64_t)` setter: returns unchanged unless the
stack is empty and the requested revision is strictly larger. -/
def undo_stack.set_revision (u : undo_stack) (revision : Int) : undo_stack :=
  if !u.m_sessions.isEmpty then u
  else if revision ≤ u.m_revision then u
  else { u with m_revision := revision }

def undo_stack.empty (u : undo_stack) : Bool := u.m_sessions.isEmpty

def undo_stack.size (u : undo_stack) : Nat := u.m_sessions.length

/-- Modelled from the spec: reading a key through a chain of layers, the
top layer resolving first, falling through layer by layer down to the head.
Under the parent-chain invariant this is exactly the resolution performed
by the C++ session's parent pointers. -/
def chain_read (head : Store) (sessions : List session_type) (k : Key) : Option Val :=
  sessions.foldl (fun acc s => match session_local s k with | some r => r | none => acc)
    (head k)

/-- The read observable through `top()`: the whole chain (or the head when
the stack is empty). -/
def undo_stack.top_read (u : undo_stack) (k : Key) : Option Val :=
  chain_read u.m_head u.m_sessions k

/-- The read observable through `bottom()`: the front layer over the head
(or the head when the stack is empty). -/
def undo_stack.bottom_read (u : undo_stack) (k : Key) : Option Val :=
  chain_read u.m_head (u.m_sessions.take 1) k

/-- The read observable through the layer at index `i` (bottom = 0). -/
def undo_stack.read_at (u : undo_stack) (i : Nat) (k : Key) : Option Val :=
  chain_read u.m_head (u.m_sessions.take (i + 1)) k

/-- A client mutation applied through `top()`. -/
inductive top_op where
  | write (k : Key) (v : Val)
  | erase (k : Key)
deriving DecidableEq

def modify_last : List session_type → (session_type → session_type) → List session_type
  | [], _ => []
  | [x], f => [f x]
  | x :: y :: rest, f => x :: modify_last (y :: rest) f

/-- Applying a client write/erase through the `top()` accessor: it reaches
the back session, or the head store itself when the stack is empty. -/
def apply_top_op (u : undo_stack) : top_op → undo_stack
  | .write k v =>
      if u.m_sessions.isEmpty then { u with m_head := store_write u.m_head k v }
      else { u with m_sessions := modify_last u.m_sessions (fun s => session_write s k v) }
  | .erase k =>
      if u.m_sessions.isEmpty then { u with m_head := store_erase u.m_head k }
      else { u with m_sessions := modify_last u.m_sessions (fun s => session_erase s k) }

def apply_top_ops (u : undo_stack) (ops : List top_op) : undo_stack :=
  ops.foldl apply_top_op u

/- ------------------------------------------------------------------ -/
/- Persistence model.                                                  -/
/- ------------------------------------------------------------------ -/

def undo_stack_magic_number : Nat := 0x30510ABC
def undo_stack_min_supported_version : Nat := 1
def undo_stack_max_supported_version : Nat := 1
def undo_stack_filename : String := "undo_stack.dat"

/-- One serialized layer of the persistence file: the updated-key count,
the (key, value) pairs written after it, the deleted-key count and the
deleted keys.  The counts are separate fields because the writer emits them
before the corresponding entries. -/
structure file_session where
  updated_count : Nat
  updated : List (Key × Val)
  deleted_count : Nat
  deleted : List Key
deriving DecidableEq

/-- The persistence file `undo_stack.dat`, with the serialized fields in
the order the code packs them (magic, version, revision, session count,
sessions bottom-to-top).  The byte-level codec is external; the structured
fields stand for the values it packs and unpacks. -/
structure undo_file where
  magic : Nat
  version : Nat
  file_revision : Int
  session_count : Nat
  file_sessions : List file_session
deriving DecidableEq

/-- Modelled from the spec: the file-system state seen by `open`/`close` —
whether the data directory exists and the contents of the persistence
file, if present. -/
structure fs_state where
  dir_exists : Bool
  file : Option undo_file
deriving DecidableEq

/-- The two fatal validation failures `open()` can raise, with the payloads
named by the error messages (file path, value found, value expected /
supported range). -/
inductive open_error where
  | bad_magic (filename : String) (actual : Nat) (expected : Nat)
  | bad_version (filename : String) (version : Nat) (minv : Nat) (maxv : Nat)
deriving DecidableEq

/-- Modelled from the spec: `session.read(key)` on the front layer: resolve
locally first, else fall through to the parent, which for the bottom layer
is the head store.  During `close()` only keys with a local pending write
are ever read, so the fall-through branch is never taken there. -/
def front_session_read (head : Store) (s : session_type) (k : Key) : Option Val :=
  match session_local s k with
  | some r => r
  | none => head k

/-- One layer as `close()` serializes it: the updated-key count, then for
each updated key the (key, value) pair — skipped if `read` yields nothing,
mirroring the `if (value)` guard — then the deleted-key count and keys. -/
def serialize_session (head : Store) (s : session_type) : file_session :=
  { updated_count := (updated_keys s).length,
    updated := (updated_keys s).filterMap (fun k =>
      match front_session_read head s k with
      | some v => some (k, v)
      | none => none),
    deleted_count := (deleted_keys s).length,
    deleted := deleted_keys s }

/-- `undo_stack::close()`: no-op without a datadir; otherwise serialize the
header and every layer bottom-to-top, draining the sequence.  The file is
produced only if the directory exists (the `ofstream` silently fails
otherwise — `close` does not create the directory); the in-memory drain
happens regardless. -/
def undo_stack.close_op (u : undo_stack) (fs : fs_state) : undo_stack × fs_state :=
  match u.m_datadir with
  | none => (u, fs)
  | some _ =>
      let f : undo_file :=
        { magic := undo_stack_magic_number,
          version := undo_stack_max_supported_version,
          file_revision := u.m_revision,
          session_count := u.m_sessions.length,
          file_sessions := u.m_sessions.map (serialize_session u.m_head) }
      ({ u with m_sessions := [] },
       if fs.dir_exists then { fs with file := some f } else fs)

/-- Replay of one serialized layer during `open()`: a fresh session,
attached as instructed, receives `write` for each of the first
`updated_count` pairs and `erase` for each of the first `deleted_count`
keys (the counts drive the unpack loops). -/
def replay_session (parent : Option (Sum Unit Nat)) (sid : Nat) (d : file_session) :
    session_type :=
  let s0 : session_type := { parent := parent, sid := sid, writes := [], deletes := [] }
  let s1 := (d.updated.take d.updated_count).foldl (fun a p => session_write a p.1 p.2) s0
  (d.deleted.take d.deleted_count).foldl session_erase s1

/-- The replay loop of `open()`: each stored layer is attached to the
current back (or to the head when none exists yet) and appended. -/
def replay_all (u : undo_stack) (ds : List file_session) : undo_stack :=
  ds.foldl (fun acc d =>
    let parent : Option (Sum Unit Nat) :=
      match acc.m_sessions.getLast? with
      | none => some (Sum.inl ())
      | some b => some (Sum.inr b.sid)
    { acc with
        m_sessions := acc.m_sessions ++ [replay_session parent acc.m_next_id d],
        m_next_id := acc.m_next_id + 1 }) u

/-- `undo_stack::open()`: no-op without a datadir; otherwise ensure the
directory exists, and when the persistence file is present validate the
magic number and version (failing fatally with the file path and offending
values before touching any layer), restore the revision through the
setter, replay every stored layer, and delete the file. -/
def undo_stack.open_op (u : undo_stack) (fs : fs_state) :
    Option open_error × undo_stack × fs_state :=
  match u.m_datadir with
  | none => (none, u, fs)
  | some dir =>
      let fs1 : fs_state := { fs with dir_exists := true }
      match fs1.file with
      | none => (none, u, fs1)
      | some f =>
          let fname := dir ++ "/" ++ undo_stack_filename
          if f.magic ≠ undo_stack_magic_number then
            (some (open_error.bad_magic fname f.magic undo_stack_magic_number), u, fs1)
          else if f.version < undo_stack_min_supported_version ∨
              undo_stack_max_supported_version < f.version then
            (some (open_error.bad_version fname f.version undo_stack_min_supported_version
              undo_stack_max_supported_version), u, fs1)
          else
            let u1 := u.set_revision f.file_revision
            let u2 := replay_all u1 (f.file_sessions.take f.session_count)
            (none, u2, { fs1 with file := none })

/- ------------------------------------------------------------------ -/
/- C7: the revision setter.                                            -/
/- ------------------------------------------------------------------ -/

/-- C7: `revision(newRevision)` changes `m_revision` to `newRevision`
exactly when the stack is empty and `newRevision > m_revision`; in every
other case it leaves the entire stack state unchanged and reports no
error. -/
theorem C7_revision_setter (u : undo_stack) (r : Int) :
    ((u.m_sessions = [] ∧ u.m_revision < r) →
      u.set_revision r = { u with m_revision := r }) ∧
    (¬(u.m_sessions = [] ∧ u.m_revision < r) → u.set_revision r = u) := by
  constructor
  · rintro ⟨h1, h2⟩
    rw [undo_stack.set_revision]
    simp [h1]
    omega
  · intro h
    rw [undo_stack.set_revision]
    by_cases h1 : u.m_sessions = []
    · have h2 : ¬ u.m_revision < r := fun hc => h ⟨h1, hc⟩
      simp [h1]
      omega
    · simp [h1]

/-- Witness for C7 at a concrete input. -/
theorem C7_revision_setter_witness :
    (undo_stack.fresh (fun _ => none) none).set_revision 5 =
      { undo_stack.fresh (fun _ => none) none with m_revision := 5 } :=
  (C7_revision_setter (undo_stack.fresh (fun _ => none) none) 5).1 ⟨rfl, by decide⟩

/- ------------------------------------------------------------------ -/
/- C8: close drains the stack and keeps the revision.                  -/
/- ------------------------------------------------------------------ -/

/-- C8: after `close()` on a stack with a configured persistence
directory, the in-memory sequence is empty (`size() == 0`,
`empty() == true`) and `m_revision` is unchanged, regardless of how many
layers were pending. -/
theorem C8_close_drains (u : undo_stack) (fs : fs_state) (d : String)
    (h : u.m_datadir = some d) :
    (u.close_op fs).1.size = 0 ∧ (u.close_op fs).1.empty = true ∧
    (u.close_op fs).1.m_revision = u.m_revision := by
  rw [undo_stack.close_op, h]
  simp [undo_stack.size, undo_stack.empty]

/-- Witness for C8 at a concrete input. -/
theorem C8_close_drains_witness :
    ((undo_stack.fresh (fun _ => none) (some "data")).close_op
        { dir_exists := true, file := none }).1.size = 0 :=
  (C8_close_drains (undo_stack.fresh (fun _ => none) (some "data"))
    { dir_exists := true, file := none } "data" rfl).1

/- ------------------------------------------------------------------ -/
/- C10: bounds of the commit loop.                                     -/
/- ------------------------------------------------------------------ -/

/-- C10: whenever `commit` is called on a non-empty stack and passes the
guard `initial_revision <= clamped revision`, the computed `start_index`
lies in `[0, size() - 1]`, so every access `m_sessions[i]` of the
descending loop and the erase of `[0 .. start_index]` stay in bounds. -/
theorem C10_commit_bounds (u : undo_stack) (t : Int) (hne : u.m_sessions ≠ [])
    (hg : u.initial_revision ≤ min t u.m_revision) :
    0 ≤ u.start_index t ∧
    u.start_index t ≤ (u.m_sessions.length : Int) - 1 ∧
    (∀ i : Nat, i ≤ (u.start_index t).toNat → i < u.m_sessions.length) ∧
    (u.start_index t).toNat + 1 ≤ u.m_sessions.length := by
  have hlen : 0 < u.m_sessions.length := List.length_pos.mpr hne
  have hmin : min t u.m_revision ≤ u.m_revision := min_le_right _ _
  rw [undo_stack.start_index, undo_stack.initial_revision] at *
  refine ⟨by omega, by omega, ?_, by omega⟩
  intro i hi
  omega

/-- Witness for C10 at a concrete input. -/
theorem C10_commit_bounds_witness :
    0 ≤ (undo_stack.fresh (fun _ => none) none).push.start_index 1 := by
  refine (C10_commit_bounds (undo_stack.fresh (fun _ => none) none).push 1 ?_ ?_).1
  · exact by decide
  · exact by decide

/- ------------------------------------------------------------------ -/
/- C1: the commit algorithm.                                           -/
/- ------------------------------------------------------------------ -/

/-- Written from the spec's description of `commit(targetRevision)`: clamp
to `min(targetRevision, m_revision)`; no-op when the bottom layer's
revision `m_revision - size() + 1` exceeds the clamped target; otherwise
commit layers from `startIndex = clampedTarget - initialRevision` down to
`0` in that descending order, erase layers `[0 .. startIndex]`, and
re-attach the new bottom layer (if any remains) to the head store. -/
def undo_stack.commit_spec (u : undo_stack) (target : Int) : undo_stack :=
  if u.m_sessions.isEmpty then u
  else
    let clampedTarget := min target u.m_revision
    let initialRevision : Int := u.m_revision - u.m_sessions.length + 1
    if initialRevision > clampedTarget then u
    else
      let startIndex : Nat := (clampedTarget - initialRevision).toNat
      let u2 := ((List.range (startIndex + 1)).reverse).foldl stack_commit_at u
      let u3 := { u2 with m_sessions := u2.m_sessions.drop (startIndex + 1) }
      match u3.m_sessions with
      | [] => u3
      | f :: rest => { u3 with m_sessions := session_attach_head f :: rest }

theorem foldl_range_reverse_eq_commit_loop (n : Nat) :
    ∀ u : undo_stack, ((List.range (n + 1)).reverse).foldl stack_commit_at u =
      commit_loop u n := by
  induction n with
  | zero => intro u; rfl
  | succ n ih =>
      intro u
      rw [List.range_succ, List.reverse_append]
      simp only [List.reverse_cons, List.reverse_nil, List.nil_append, List.singleton_append,
        List.foldl_cons]
      rw [ih]
      rfl

theorem apply_to_parent_m_revision (u : undo_stack) (s : session_type) :
    (apply_to_parent u s).m_revision = u.m_revision := by
  rw [apply_to_parent]
  rcases s.parent with _ | p
  · rfl
  · rcases p with _ | pid <;> rfl

theorem stack_commit_at_m_revision (u : undo_stack) (i : Nat) :
    (stack_commit_at u i).m_revision = u.m_revision := by
  rw [stack_commit_at]
  rcases h : u.m_sessions[i]? with _ | s
  · rfl
  · simp only
    rw [apply_to_parent_m_revision]

theorem commit_loop_m_revision (n : Nat) :
    ∀ u : undo_stack, (commit_loop u n).m_revision = u.m_revision := by
  induction n with
  | zero => intro u; rw [commit_loop, stack_commit_at_m_revision]
  | succ n ih => intro u; rw [commit_loop, ih, stack_commit_at_m_revision]

/-- C1: on a non-empty stack `commit(targetRevision)` behaves exactly as
the spec describes (clamping, the no-op guard, committing layers from
`startIndex` down to `0` in that order, erasing `[0 .. startIndex]`,
re-attaching the remaining bottom layer to the head store), and leaves
`m_revision` unchanged. -/
theorem C1_commit (u : undo_stack) (t : Int) (hne : u.m_sessions ≠ []) :
    u.commit t = u.commit_spec t ∧
    (u.commit t).m_revision = u.m_revision ∧
    (u.initial_revision > min t u.m_revision → u.commit t = u) := by
  have hspec : u.commit t = u.commit_spec t := by
    rw [undo_stack.commit, undo_stack.commit_spec, undo_stack.start_index,
      undo_stack.initial_revision]
    by_cases he : u.m_sessions.isEmpty
    · simp [he]
    · simp only [he, if_false, Bool.false_eq_true]
      by_cases hg : u.m_revision - (u.m_sessions.length : Int) + 1 > min t u.m_revision
      · rw [if_pos hg, if_pos hg]
      · rw [if_neg hg, if_neg hg]
        rw [foldl_range_reverse_eq_commit_loop]
  refine ⟨hspec, ?_, ?_⟩
  · rw [undo_stack.commit]
    split
    · rfl
    · split
      · rfl
      · dsimp only
        split
        · exact commit_loop_m_revision _ u
        · exact commit_loop_m_revision _ u
  · intro hg
    rw [undo_stack.commit]
    by_cases he : u.m_sessions.isEmpty
    · simp [he]
    · simp only [he, if_false, Bool.false_eq_true]
      rw [if_pos hg]

/-- Witness for C1 at a concrete input. -/
theorem C1_commit_witness :
    (undo_stack.fresh (fun _ => none) none).push.commit 1 =
      (undo_stack.fresh (fun _ => none) none).push.commit_spec 1 :=
  (C1_commit (undo_stack.fresh (fun _ => none) none).push 1 (by decide)).1

/- ------------------------------------------------------------------ -/
/- C9: who creates the data directory.                                 -/
/- ------------------------------------------------------------------ -/

/-- C9 counterexample: the claim "`close()` ensures the target directory
exists (creating it if missing)" is false: with a configured datadir and a
missing directory, `close` leaves the directory missing (its `ofstream` is
simply opened on a path whose directory may not exist). -/
theorem C9_close_no_mkdir_counterexample :
    ¬ (∀ (u : undo_stack) (fs : fs_state), u.m_datadir ≠ none →
        ((u.close_op fs).2).dir_exists = true) := by
  intro h
  have := h (undo_stack.fresh (fun _ => none) (some "data"))
    { dir_exists := false, file := none } (by simp [undo_stack.fresh])
  simp [undo_stack.close_op, undo_stack.fresh] at this

/-- C9 amended: it is `open()`, not `close()`, that ensures the target
directory exists (creating it if missing) when a persistence directory is
configured; `close()` opens the persistence file for writing without
creating the directory, leaving directory existence unchanged. -/
theorem C9_open_creates_dir (u : undo_stack) (fs : fs_state) (d : String)
    (h : u.m_datadir = some d) :
    ((u.open_op fs).2.2).dir_exists = true ∧
    ((u.close_op fs).2).dir_exists = fs.dir_exists := by
  constructor
  · rw [undo_stack.open_op, h]
    rcases hf : fs.file with _ | f
    · simp [hf]
    · simp only [hf]
      split
      · rfl
      · split
        · rfl
        · rfl
  · rw [undo_stack.close_op, h]
    by_cases hd : fs.dir_exists
    · simp [hd]
    · simp [hd]

/-- Witness for the amended C9 at a concrete input. -/
theorem C9_open_creates_dir_witness :
    (((undo_stack.fresh (fun _ => none) (some "data")).open_op
        { dir_exists := false, file := none }).2.2).dir_exists = true :=
  (C9_open_creates_dir (undo_stack.fresh (fun _ => none) (some "data"))
    { dir_exists := false, file := none } "data" rfl).1

/- ------------------------------------------------------------------ -/
/- C6: open() validation failures.                                     -/
/- ------------------------------------------------------------------ -/

/-- C6: `open()` on an existing persistence file fails with an error
naming the file path, the value found and the value expected — without
replaying any layer (the stack is returned untouched and the file is not
consumed) — whenever the first uint32 differs from the magic constant
`0x30510ABC`, or the second uint32 lies outside the supported version
range `[1, 1]`. -/
theorem C6_open_validation (u : undo_stack) (fs : fs_state) (f : undo_file) (d : String)
    (hd : u.m_datadir = some d) (hf : fs.file = some f) :
    (f.magic ≠ undo_stack_magic_number →
      u.open_op fs =
        (some (open_error.bad_magic (d ++ "/" ++ undo_stack_filename) f.magic
          undo_stack_magic_number), u, { fs with dir_exists := true })) ∧
    (f.magic = undo_stack_magic_number →
      (f.version < undo_stack_min_supported_version ∨
        undo_stack_max_supported_version < f.version) →
      u.open_op fs =
        (some (open_error.bad_version (d ++ "/" ++ undo_stack_filename) f.version
          undo_stack_min_supported_version undo_stack_max_supported_version), u,
          { fs with dir_exists := true })) := by
  constructor
  · intro hm
    rw [undo_stack.open_op, hd]
    simp only [hf]
    rw [if_pos hm]
  · intro hm hv
    rw [undo_stack.open_op, hd]
    simp only [hf]
    rw [if_neg (by simp [hm]), if_pos hv]

/-- Witness for C6 at a concrete input. -/
theorem C6_open_validation_witness :
    (undo_stack.fresh (fun _ => none) (some "data")).open_op
        { dir_exists := true,
          file := some { magic := 0, version := 1, file_revision := 0,
                         session_count := 0, file_sessions := [] } } =
      (some (open_error.bad_magic ("data" ++ "/" ++ undo_stack_filename) 0
        undo_stack_magic_number), undo_stack.fresh (fun _ => none) (some "data"),
        { dir_exists := true,
          file := some { magic := 0, version := 1, file_revision := 0,
                         session_count := 0, file_sessions := [] } }) :=
  (C6_open_validation (undo_stack.fresh (fun _ => none) (some "data"))
    { dir_exists := true,
      file := some { magic := 0, version := 1, file_revision := 0,
                     session_count := 0, file_sessions := [] } }
    { magic := 0, version := 1, file_revision := 0, session_count := 0, file_sessions := [] }
    "data" rfl rfl).1 (by decide)

/- ------------------------------------------------------------------ -/
/- C5: serialization consistency during close().                       -/
/- ------------------------------------------------------------------ -/

theorem length_filterMap_of_total {α β : Type} (l : List α) (f : α → Option β)
    (h : ∀ a ∈ l, (f a).isSome) : (l.filterMap f).length = l.length := by
  induction l with
  | nil => rfl
  | cons a l ih =>
      rcases hfa : f a with _ | b
      · exact absurd (h a (by simp)) (by simp [hfa])
      · rw [List.filterMap_cons]
        simp only [hfa, List.length_cons]
        rw [ih (fun x hx => h x (by simp [hx]))]

theorem find_key_of_mem_updated (l : List (Key × Val)) (k : Key)
    (h : k ∈ l.map Prod.fst) :
    ∃ p, l.find? (fun q => q.1 == k) = some p ∧ p.1 = k := by
  induction l with
  | nil => simp at h
  | cons q l ih =>
      by_cases hq : q.1 = k
      · exact ⟨q, by simp [List.find?, hq], hq⟩
      · have h' := h
        simp only [List.map_cons, List.mem_cons] at h'
        rcases h' with h1 | h1
        · exact absurd h1.symm hq
        · obtain ⟨p, hp1, hp2⟩ := ih h1
          refine ⟨p, ?_, hp2⟩
          rw [List.find?_cons_of_neg _ (by simp [hq]), hp1]

theorem session_local_of_mem_updated (s : session_type) (k : Key)
    (h : k ∈ updated_keys s) : ∃ v, session_local s k = some (some v) := by
  obtain ⟨p, hp1, _⟩ := find_key_of_mem_updated s.writes k h
  exact ⟨p.2, by rw [session_local, hp1]⟩

/-- C5: for every serialized layer, the number written as the updated-key
count equals the number of (key, value) pairs actually written after it,
and for every key listed by `updated_keys()` the layer's `read(key)`
succeeds and its result is the value serialized for that key. -/
theorem C5_close_serialization (head : Store) (s : session_type) :
    (serialize_session head s).updated_count = (serialize_session head s).updated.length ∧
    (∀ k, k ∈ updated_keys s →
      ∃ v, front_session_read head s k = some v ∧
        (k, v) ∈ (serialize_session head s).updated) := by
  have hread : ∀ k, k ∈ updated_keys s → ∃ v, front_session_read head s k = some v := by
    intro k hk
    obtain ⟨v, hv⟩ := session_local_of_mem_updated s k hk
    exact ⟨v, by rw [front_session_read, hv]⟩
  constructor
  · rw [serialize_session]
    simp only
    rw [length_filterMap_of_total]
    intro k hk
    obtain ⟨v, hv⟩ := hread k hk
    simp [hv]
  · intro k hk
    obtain ⟨v, hv⟩ := hread k hk
    refine ⟨v, hv, ?_⟩
    rw [serialize_session]
    simp only
    apply List.mem_filterMap.mpr
    exact ⟨k, hk, by rw [hv]⟩

/-- Witness for C5 at a concrete input. -/
theorem C5_close_serialization_witness :
    ∃ v, front_session_read (fun _ => none)
        { parent := some (Sum.inl ()), sid := 0, writes := [(1, 2)], deletes := [3] } 1 =
        some v ∧
      (1, v) ∈ (serialize_session (fun _ => none)
        { parent := some (Sum.inl ()), sid := 0, writes := [(1, 2)], deletes := [3] }).updated :=
  (C5_close_serialization (fun _ => none)
    { parent := some (Sum.inl ()), sid := 0, writes := [(1, 2)], deletes := [3] }).2 1
    (by decide)

/- ------------------------------------------------------------------ -/
/- C3: push / mutate / undo round trip.                                -/
/- ------------------------------------------------------------------ -/

theorem modify_last_append (l : List session_type) (s : session_type)
    (f : session_type → session_type) :
    modify_last (l ++ [s]) f = l ++ [f s] := by
  induction l with
  | nil => rfl
  | cons x l ih =>
      cases l with
      | nil => rfl
      | cons y l2 => simpa [modify_last] using ih

theorem apply_top_op_append (u : undo_stack) (o : top_op) (l : List session_type)
    (s : session_type) (h : u.m_sessions = l ++ [s]) :
    ∃ s2, (apply_top_op u o).m_sessions = l ++ [s2] ∧
      (apply_top_op u o).m_head = u.m_head ∧
      (apply_top_op u o).m_revision = u.m_revision ∧
      (apply_top_op u o).m_next_id = u.m_next_id ∧
      (apply_top_op u o).m_datadir = u.m_datadir := by
  have hne : ¬ u.m_sessions.isEmpty := by
    rw [h]; simp
  cases o with
  | write k v =>
      refine ⟨session_write s k v, ?_, ?_, ?_, ?_, ?_⟩ <;>
        simp [apply_top_op, hne, h, modify_last_append]
  | erase k =>
      refine ⟨session_erase s k, ?_, ?_, ?_, ?_, ?_⟩ <;>
        simp [apply_top_op, hne, h, modify_last_append]

theorem apply_top_ops_append (ops : List top_op) :
    ∀ (u : undo_stack) (l : List session_type) (s : session_type),
      u.m_sessions = l ++ [s] →
      ∃ s2, (apply_top_ops u ops).m_sessions = l ++ [s2] ∧
        (apply_top_ops u ops).m_head = u.m_head ∧
        (apply_top_ops u ops).m_revision = u.m_revision ∧
        (apply_top_ops u ops).m_next_id = u.m_next_id ∧
        (apply_top_ops u ops).m_datadir = u.m_datadir := by
  induction ops with
  | nil => intro u l s h; exact ⟨s, h, rfl, rfl, rfl, rfl⟩
  | cons o ops ih =>
      intro u l s h
      obtain ⟨s2, h1, h2, h3, h4, h5⟩ := apply_top_op_append u o l s h
      obtain ⟨s3, g1, g2, g3, g4, g5⟩ := ih (apply_top_op u o) l s2 h1
      exact ⟨s3, g1, g2.trans h2, g3.trans h3, g4.trans h4, g5.trans h5⟩

/-- C3: for every stack state and every sequence of write/erase operations
applied to the top layer after `push()`, an immediate `undo()` restores the
`read(key)` results observable through `top()` and `bottom()` for every
key, and restores `size()` and `revision()` to their values before the
push. -/
theorem C3_push_undo_round_trip (u : undo_stack) (ops : List top_op) :
    (∀ k, ((apply_top_ops u.push ops).undo).top_read k = u.top_read k) ∧
    (∀ k, ((apply_top_ops u.push ops).undo).bottom_read k = u.bottom_read k) ∧
    ((apply_top_ops u.push ops).undo).size = u.size ∧
    ((apply_top_ops u.push ops).undo).revision = u.revision := by
  obtain ⟨s2, h1, h2, h3, h4, h5⟩ :=
    apply_top_ops_append ops u.push u.m_sessions _ (by rw [undo_stack.push])
  have hne : ¬ (apply_top_ops u.push ops).m_sessions.isEmpty := by
    rw [h1]; simp
  have hsess : ((apply_top_ops u.push ops).undo).m_sessions = u.m_sessions := by
    rw [undo_stack.undo, if_neg (by simp [hne]), h1]
    simp
  have hrev : ((apply_top_ops u.push ops).undo).m_revision = u.m_revision := by
    rw [undo_stack.undo, if_neg (by simp [hne])]
    simp only
    rw [h3]
    show u.push.m_revision - 1 = u.m_revision
    simp [undo_stack.push]
  have hhead : ((apply_top_ops u.push ops).undo).m_head = u.m_head := by
    rw [undo_stack.undo, if_neg (by simp [hne])]
    simpa using h2
  refine ⟨?_, ?_, ?_, ?_⟩
  · intro k
    rw [undo_stack.top_read, undo_stack.top_read, hsess, hhead]
  · intro k
    rw [undo_stack.bottom_read, undo_stack.bottom_read, hsess, hhead]
  · rw [undo_stack.size, undo_stack.size, hsess]
  · rw [undo_stack.revision, undo_stack.revision, hrev]

/- ------------------------------------------------------------------ -/
/- C2: the parent-chain invariant.                                     -/
/- ------------------------------------------------------------------ -/

/-- The part of a session relevant to the chain structure: its parent link
and its identity. -/
def session_skel (s : session_type) : Option (Sum Unit Nat) × Nat := (s.parent, s.sid)

/-- `chain_skel p l`: the first element of `l` has parent `p` and each
following element has the previous element as parent (through its id). -/
def chain_skel : Option (Sum Unit Nat) → List (Option (Sum Unit Nat) × Nat) → Bool
  | _, [] => true
  | p, q :: rest => if q.1 = p then chain_skel (some (Sum.inr q.2)) rest else false

/-- The parent-chain invariant of the stack: layer 0's parent is the head
store and every later layer's parent is the layer just below it. -/
def chain_ok (u : undo_stack) : Prop :=
  chain_skel (some (Sum.inl ())) (u.m_sessions.map session_skel) = true

/-- Identity hygiene: session ids are pairwise distinct and below the
allocator, so a parent id designates a unique session (as a C++ address
designates a unique object). -/
def ids_ok (u : undo_stack) : Prop :=
  (u.m_sessions.map session_type.sid).Nodup ∧
  ∀ i ∈ u.m_sessions.map session_type.sid, i < u.m_next_id

def stack_inv (u : undo_stack) : Prop := chain_ok u ∧ ids_ok u

theorem chain_skel_dropLast :
    ∀ (l : List (Option (Sum Unit Nat) × Nat)) (p : Option (Sum Unit Nat)),
      chain_skel p l = true → chain_skel p l.dropLast = true := by
  intro l
  induction l with
  | nil => intro p _; rfl
  | cons q rest ih =>
      intro p h
      cases rest with
      | nil => rfl
      | cons r rest2 =>
          rw [chain_skel] at h
          by_cases hq : q.1 = p
          · rw [List.dropLast_cons_of_ne_nil (by simp), chain_skel, if_pos hq]
            exact ih _ (by rwa [if_pos hq] at h)
          · rw [if_neg hq] at h; exact absurd h (by simp)

theorem chain_skel_append_one :
    ∀ (l : List (Option (Sum Unit Nat) × Nat)) (p : Option (Sum Unit Nat))
      (q : Option (Sum Unit Nat) × Nat),
      chain_skel p l = true →
      q.1 = (match l.getLast? with
             | none => p
             | some r => some (Sum.inr r.2)) →
      chain_skel p (l ++ [q]) = true := by
  intro l
  induction l with
  | nil =>
      intro p q _ hq
      simp only [List.getLast?_nil] at hq
      simp [chain_skel, hq]
  | cons r rest ih =>
      intro p q h hq
      rw [chain_skel] at h
      by_cases hr : r.1 = p
      · rw [if_pos hr] at h
        rw [List.cons_append, chain_skel, if_pos hr]
        apply ih _ _ h
        cases rest with
        | nil => simpa using hq
        | cons r2 rest2 => simpa [List.getLast?_cons_cons] using hq
      · rw [if_neg hr] at h; exact absurd h (by simp)

theorem chain_skel_drop_cons :
    ∀ (n : Nat) (l : List (Option (Sum Unit Nat) × Nat)) (p : Option (Sum Unit Nat))
      (q : Option (Sum Unit Nat) × Nat) (rest : List (Option (Sum Unit Nat) × Nat)),
      chain_skel p l = true → l.drop n = q :: rest →
      chain_skel (some (Sum.inr q.2)) rest = true := by
  intro n
  induction n with
  | zero =>
      intro l p q rest h hd
      simp only [List.drop_zero] at hd
      subst hd
      rw [chain_skel] at h
      by_cases hq : q.1 = p
      · rwa [if_pos hq] at h
      · rw [if_neg hq] at h; exact absurd h (by simp)
  | succ n ih =>
      intro l p q rest h hd
      cases l with
      | nil => simp at hd
      | cons r l2 =>
          rw [List.drop_succ_cons] at hd
          rw [chain_skel] at h
          by_cases hr : r.1 = p
          · rw [if_pos hr] at h
            exact ih l2 _ q rest h hd
          · rw [if_neg hr] at h; exact absurd h (by simp)

theorem chain_skel_get :
    ∀ (l : List (Option (Sum Unit Nat) × Nat)) (p : Option (Sum Unit Nat)),
      chain_skel p l = true →
      (∀ h0 : 0 < l.length, (l.get ⟨0, h0⟩).1 = p) ∧
      (∀ i, ∀ h : i + 1 < l.length,
        (l.get ⟨i + 1, h⟩).1 = some (Sum.inr (l.get ⟨i, by omega⟩).2)) := by
  intro l
  induction l with
  | nil =>
      intro p _
      exact ⟨fun h0 => absurd h0 (by simp), fun i h => absurd h (by simp)⟩
  | cons q rest ih =>
      intro p h
      rw [chain_skel] at h
      by_cases hq : q.1 = p
      · rw [if_pos hq] at h
        obtain ⟨ih0, ihs⟩ := ih _ h
        refine ⟨fun _ => hq, ?_⟩
        intro i hi
        cases i with
        | zero =>
            cases rest with
            | nil => simp at hi
            | cons r rest2 =>
                simpa using ih0 (by simp)
        | succ j =>
            have hj : j + 1 < rest.length := by
              simpa using hi
            simpa using ihs j hj
      · rw [if_neg hq] at h; exact absurd h (by simp)

theorem session_skel_write (a : session_type) (k : Key) (v : Val) :
    session_skel (session_write a k v) = session_skel a := rfl

theorem session_skel_erase (a : session_type) (k : Key) :
    session_skel (session_erase a k) = session_skel a := rfl

theorem session_skel_foldl_write (W : List (Key × Val)) :
    ∀ a : session_type,
      session_skel (W.foldl (fun x p => session_write x p.1 p.2) a) = session_skel a := by
  induction W with
  | nil => intro a; rfl
  | cons p W ih => intro a; rw [List.foldl_cons, ih, session_skel_write]

theorem session_skel_foldl_erase (D : List Key) :
    ∀ a : session_type,
      session_skel (D.foldl session_erase a) = session_skel a := by
  induction D with
  | nil => intro a; rfl
  | cons k D ih => intro a; rw [List.foldl_cons, ih, session_skel_erase]

theorem session_skel_merge (p s : session_type) :
    session_skel (merge_into_session p s) = session_skel p := by
  rw [merge_into_session, session_skel_foldl_erase, session_skel_foldl_write]

/-- The skeleton of the session list together with the id allocator: the
data `stack_inv` depends on. -/
def stack_skel (u : undo_stack) : List (Option (Sum Unit Nat) × Nat) × Nat :=
  (u.m_sessions.map session_skel, u.m_next_id)

theorem stack_inv_of_skel_eq {u v : undo_stack} (h : stack_skel u = stack_skel v)
    (hv : stack_inv v) : stack_inv u := by
  have h1 : u.m_sessions.map session_skel = v.m_sessions.map session_skel :=
    congrArg Prod.fst h
  have h2 : u.m_next_id = v.m_next_id := congrArg Prod.snd h
  have hsid : u.m_sessions.map session_type.sid = v.m_sessions.map session_type.sid := by
    have : (u.m_sessions.map session_skel).map Prod.snd =
        (v.m_sessions.map session_skel).map Prod.snd := by rw [h1]
    simpa [List.map_map, Function.comp, session_skel] using this
  have hc := hv.1
  have hn := hv.2.1
  have hb := hv.2.2
  refine ⟨?_, ?_, ?_⟩
  · rw [chain_ok, h1]; exact hc
  · rw [hsid]; exact hn
  · intro i hi
    rw [hsid] at hi
    rw [h2]
    exact hb i hi

theorem apply_to_parent_skel (u : undo_stack) (s : session_type) :
    stack_skel (apply_to_parent u s) = stack_skel u := by
  rw [apply_to_parent]
  rcases s.parent with _ | p
  · rfl
  · rcases p with _ | pid
    · rfl
    · rw [stack_skel, stack_skel]
      simp only [Prod.mk.injEq, and_true]
      rw [List.map_map]
      apply List.map_congr_left
      intro t _
      by_cases ht : t.sid = pid
      · simp [Function.comp, ht, session_skel_merge]
      · simp [Function.comp, ht]

theorem stack_commit_at_skel (u : undo_stack) (i : Nat) :
    stack_skel (stack_commit_at u i) = stack_skel u := by
  rw [stack_commit_at]
  rcases h : u.m_sessions[i]? with _ | s
  · rfl
  · simp only
    rw [stack_skel]
    simp only
    rw [List.map_map]
    have hmap : ∀ t : session_type,
        (session_skel ∘ fun t => if t.sid = s.sid then session_clear t else t) t =
          session_skel t := by
      intro t
      by_cases ht : t.sid = s.sid
      · simp [Function.comp, ht, session_clear, session_skel]
      · simp [Function.comp, ht]
    rw [List.map_congr_left (fun t _ => hmap t)]
    have := apply_to_parent_skel u s
    rw [stack_skel, stack_skel] at this
    exact this

theorem commit_loop_skel (n : Nat) :
    ∀ u : undo_stack, stack_skel (commit_loop u n) = stack_skel u := by
  induction n with
  | zero => intro u; rw [commit_loop, stack_commit_at_skel]
  | succ n ih => intro u; rw [commit_loop, ih, stack_commit_at_skel]

theorem modify_last_skel (f : session_type → session_type)
    (hf : ∀ x, session_skel (f x) = session_skel x) :
    ∀ l : List session_type, (modify_last l f).map session_skel = l.map session_skel := by
  intro l
  induction l with
  | nil => rfl
  | cons x l ih =>
      cases l with
      | nil => simp [modify_last, hf]
      | cons y l2 =>
          rw [modify_last]
          simp only [List.map_cons]
          rw [ih]
          simp

theorem map_dropLast_eq {α β : Type} (f : α → β) :
    ∀ l : List α, l.dropLast.map f = (l.map f).dropLast := by
  intro l
  induction l with
  | nil => rfl
  | cons x l ih =>
      cases l with
      | nil => rfl
      | cons y l2 =>
          show f x :: (y :: l2).dropLast.map f = f x :: ((y :: l2).map f).dropLast
          exact congrArg (List.cons (f x)) ih

theorem map_getLast?_eq {α β : Type} (f : α → β) :
    ∀ l : List α, (l.map f).getLast? = l.getLast?.map f := by
  intro l
  induction l with
  | nil => rfl
  | cons x l ih =>
      cases l with
      | nil => rfl
      | cons y l2 =>
          simp only [List.map_cons, List.getLast?_cons_cons]
          simpa using ih

theorem map_drop_eq {α β : Type} (f : α → β) :
    ∀ (n : Nat) (l : List α), (l.drop n).map f = (l.map f).drop n := by
  intro n
  induction n with
  | zero => intro l; rfl
  | succ n ih =>
      intro l
      cases l with
      | nil => rfl
      | cons x l2 => simpa using ih l2

theorem sid_map_of_skel_map {l1 l2 : List session_type}
    (h : l1.map session_skel = l2.map session_skel) :
    l1.map session_type.sid = l2.map session_type.sid := by
  have h2 := congrArg (List.map Prod.snd) h
  simpa [List.map_map, Function.comp, session_skel] using h2

theorem inv_parts_append_fresh (l : List session_type) (nid : Nat) (s : session_type)
    (hc : chain_skel (some (Sum.inl ())) (l.map session_skel) = true)
    (hn : (l.map session_type.sid).Nodup)
    (hb : ∀ i ∈ l.map session_type.sid, i < nid)
    (hsid : s.sid = nid)
    (hpar : s.parent = (match l.getLast? with
                        | none => some (Sum.inl ())
                        | some b => some (Sum.inr b.sid))) :
    chain_skel (some (Sum.inl ())) ((l ++ [s]).map session_skel) = true ∧
    ((l ++ [s]).map session_type.sid).Nodup ∧
    (∀ i ∈ (l ++ [s]).map session_type.sid, i < nid + 1) := by
  refine ⟨?_, ?_, ?_⟩
  · rw [List.map_append]
    apply chain_skel_append_one _ _ _ hc
    rw [map_getLast?_eq]
    rcases hl : l.getLast? with _ | b
    · show s.parent = some (Sum.inl ())
      rw [hpar, hl]
    · show s.parent = some (Sum.inr b.sid)
      rw [hpar, hl]
  · rw [List.map_append]
    rw [List.nodup_append]
    refine ⟨hn, by simp, ?_⟩
    intro a ha hb2
    simp only [List.map_cons, List.map_nil, List.mem_cons, List.not_mem_nil, or_false] at hb2
    subst hb2
    exact absurd (hb _ ha) (by omega)
  · intro i hi
    rw [List.map_append] at hi
    rcases List.mem_append.mp hi with h1 | h1
    · exact Nat.lt_succ_of_lt (hb _ h1)
    · simp only [List.map_cons, List.map_nil, List.mem_cons, List.not_mem_nil, or_false] at h1
      omega

theorem inv_parts_dropLast (l : List session_type) (nid : Nat)
    (hc : chain_skel (some (Sum.inl ())) (l.map session_skel) = true)
    (hn : (l.map session_type.sid).Nodup)
    (hb : ∀ i ∈ l.map session_type.sid, i < nid) :
    chain_skel (some (Sum.inl ())) (l.dropLast.map session_skel) = true ∧
    (l.dropLast.map session_type.sid).Nodup ∧
    (∀ i ∈ l.dropLast.map session_type.sid, i < nid) := by
  refine ⟨?_, ?_, ?_⟩
  · rw [map_dropLast_eq]
    exact chain_skel_dropLast _ _ hc
  · rw [map_dropLast_eq]
    exact (List.dropLast_sublist _).nodup hn
  · intro i hi
    rw [map_dropLast_eq] at hi
    exact hb i ((List.dropLast_sublist _).subset hi)

theorem stack_inv_push (u : undo_stack) (h : stack_inv u) : stack_inv u.push := by
  rw [undo_stack.push]
  rcases hl : u.m_sessions.getLast? with _ | b
  · simp only [hl]
    obtain ⟨c1, c2, c3⟩ := inv_parts_append_fresh u.m_sessions u.m_next_id
      { parent := some (Sum.inl ()), sid := u.m_next_id, writes := [], deletes := [] }
      h.1 h.2.1 h.2.2 rfl (by rw [hl])
    exact ⟨c1, c2, c3⟩
  · simp only [hl]
    obtain ⟨c1, c2, c3⟩ := inv_parts_append_fresh u.m_sessions u.m_next_id
      { parent := some (Sum.inr b.sid), sid := u.m_next_id, writes := [], deletes := [] }
      h.1 h.2.1 h.2.2 rfl (by rw [hl])
    exact ⟨c1, c2, c3⟩

theorem stack_inv_undo (u : undo_stack) (h : stack_inv u) : stack_inv u.undo := by
  rw [undo_stack.undo]
  split
  · exact h
  · obtain ⟨c1, c2, c3⟩ := inv_parts_dropLast u.m_sessions u.m_next_id h.1 h.2.1 h.2.2
    exact ⟨c1, c2, c3⟩

theorem stack_inv_squash (u : undo_stack) (h : stack_inv u) : stack_inv u.squash := by
  rw [undo_stack.squash]
  split
  · exact h
  · dsimp only
    have hskel := stack_commit_at_skel u (u.m_sessions.length - 1)
    have h1 : (stack_commit_at u (u.m_sessions.length - 1)).m_sessions.map session_skel =
        u.m_sessions.map session_skel := congrArg Prod.fst hskel
    have h2 : (stack_commit_at u (u.m_sessions.length - 1)).m_next_id = u.m_next_id :=
      congrArg Prod.snd hskel
    have hsid := sid_map_of_skel_map h1
    obtain ⟨c1, c2, c3⟩ := inv_parts_dropLast
      (stack_commit_at u (u.m_sessions.length - 1)).m_sessions u.m_next_id
      (by rw [h1]; exact h.1) (by rw [hsid]; exact h.2.1)
      (by intro i hi; rw [hsid] at hi; exact h.2.2 i hi)
    refine ⟨c1, c2, ?_⟩
    intro i hi
    rw [h2]
    exact c3 i hi

theorem stack_inv_commit (u : undo_stack) (t : Int) (h : stack_inv u) :
    stack_inv (u.commit t) := by
  rw [undo_stack.commit]
  split
  · exact h
  · split
    · exact h
    · dsimp only
      have hskel := commit_loop_skel (u.start_index t).toNat u
      have h1 : (commit_loop u (u.start_index t).toNat).m_sessions.map session_skel =
          u.m_sessions.map session_skel := congrArg Prod.fst hskel
      have h2 : (commit_loop u (u.start_index t).toNat).m_next_id = u.m_next_id :=
        congrArg Prod.snd hskel
      have hsid := sid_map_of_skel_map h1
      rcases hdrop : (commit_loop u (u.start_index t).toNat).m_sessions.drop
          ((u.start_index t).toNat + 1) with _ | ⟨f, rest⟩
      · exact ⟨rfl, by simp, by simp⟩
      · refine ⟨?_, ?_, ?_⟩
        · show chain_skel (some (Sum.inl ()))
            ((session_attach_head f :: rest).map session_skel) = true
          have hcnd : (session_skel (session_attach_head f)).1 = some (Sum.inl ()) := rfl
          rw [List.map_cons, chain_skel, if_pos hcnd]
          have hmapped : (u.m_sessions.map session_skel).drop
              ((u.start_index t).toNat + 1) = session_skel f :: rest.map session_skel := by
            rw [← h1, ← map_drop_eq, hdrop, List.map_cons]
          exact chain_skel_drop_cons ((u.start_index t).toNat + 1)
            (List.map session_skel u.m_sessions) (some (Sum.inl ())) (session_skel f)
            (List.map session_skel rest) h.1 hmapped
        · show ((session_attach_head f :: rest).map session_type.sid).Nodup
          have hmapped : (u.m_sessions.map session_type.sid).drop
              ((u.start_index t).toNat + 1) = f.sid :: rest.map session_type.sid := by
            rw [← hsid, ← map_drop_eq, hdrop, List.map_cons]
          have hsub : (f.sid :: rest.map session_type.sid).Sublist
              (u.m_sessions.map session_type.sid) := by
            rw [← hmapped]; exact List.drop_sublist _ _
          exact hsub.nodup h.2.1
        · intro i hi
          show i < (commit_loop u (u.start_index t).toNat).m_next_id
          rw [h2]
          have hmapped : (u.m_sessions.map session_type.sid).drop
              ((u.start_index t).toNat + 1) = f.sid :: rest.map session_type.sid := by
            rw [← hsid, ← map_drop_eq, hdrop, List.map_cons]
          have hsub : (f.sid :: rest.map session_type.sid).Sublist
              (u.m_sessions.map session_type.sid) := by
            rw [← hmapped]; exact List.drop_sublist _ _
          exact h.2.2 i (hsub.subset hi)

theorem stack_inv_set_revision (u : undo_stack) (r : Int) (h : stack_inv u) :
    stack_inv (u.set_revision r) := by
  rw [undo_stack.set_revision]
  split
  · exact h
  · split
    · exact h
    · exact h

theorem stack_inv_apply_top_op (u : undo_stack) (o : top_op) (h : stack_inv u) :
    stack_inv (apply_top_op u o) := by
  cases o with
  | write k v =>
      rw [apply_top_op]
      split
      · exact h
      · have hm := modify_last_skel (fun s => session_write s k v)
          (fun x => session_skel_write x k v) u.m_sessions
        have hsid := sid_map_of_skel_map hm
        exact ⟨by rw [chain_ok]; simp only; rw [hm]; exact h.1,
               by rw [hsid]; exact h.2.1,
               by intro i hi; rw [hsid] at hi; exact h.2.2 i hi⟩
  | erase k =>
      rw [apply_top_op]
      split
      · exact h
      · have hm := modify_last_skel (fun s => session_erase s k)
          (fun x => session_skel_erase x k) u.m_sessions
        have hsid := sid_map_of_skel_map hm
        exact ⟨by rw [chain_ok]; simp only; rw [hm]; exact h.1,
               by rw [hsid]; exact h.2.1,
               by intro i hi; rw [hsid] at hi; exact h.2.2 i hi⟩

theorem stack_inv_close (u : undo_stack) (fs : fs_state) (h : stack_inv u) :
    stack_inv (u.close_op fs).1 := by
  rw [undo_stack.close_op]
  rcases hd : u.m_datadir with _ | d
  · exact h
  · exact ⟨rfl, by simp, by simp⟩

theorem replay_session_skel (p : Option (Sum Unit Nat)) (i : Nat) (d : file_session) :
    session_skel (replay_session p i d) = (p, i) := by
  rw [replay_session]
  rw [session_skel_foldl_erase, session_skel_foldl_write]
  rfl

theorem replay_session_parent (p : Option (Sum Unit Nat)) (i : Nat) (d : file_session) :
    (replay_session p i d).parent = p :=
  congrArg Prod.fst (replay_session_skel p i d)

theorem replay_session_sid (p : Option (Sum Unit Nat)) (i : Nat) (d : file_session) :
    (replay_session p i d).sid = i :=
  congrArg Prod.snd (replay_session_skel p i d)

theorem stack_inv_replay_all (ds : List file_session) :
    ∀ u : undo_stack, stack_inv u → stack_inv (replay_all u ds) := by
  induction ds with
  | nil => intro u h; exact h
  | cons d ds ih =>
      intro u h
      rw [replay_all, List.foldl_cons]
      have hstep : stack_inv
          { u with
              m_sessions := u.m_sessions ++
                [replay_session (match u.m_sessions.getLast? with
                  | none => some (Sum.inl ())
                  | some b => some (Sum.inr b.sid)) u.m_next_id d],
              m_next_id := u.m_next_id + 1 } := by
        obtain ⟨c1, c2, c3⟩ := inv_parts_append_fresh u.m_sessions u.m_next_id
          (replay_session (match u.m_sessions.getLast? with
            | none => some (Sum.inl ())
            | some b => some (Sum.inr b.sid)) u.m_next_id d)
          h.1 h.2.1 h.2.2
          (replay_session_sid _ _ _)
          (replay_session_parent _ _ _)
        exact ⟨c1, c2, c3⟩
      exact ih _ hstep

theorem stack_inv_open (u : undo_stack) (fs : fs_state) (h : stack_inv u) :
    stack_inv (u.open_op fs).2.1 := by
  rw [undo_stack.open_op]
  rcases hd : u.m_datadir with _ | d
  · exact h
  · rcases hf : fs.file with _ | f
    · simp only [hf]
      exact h
    · simp only [hf]
      split
      · exact h
      · split
        · exact h
        · exact stack_inv_replay_all _ _ (stack_inv_set_revision u f.file_revision h)

/-- The reachable states of an undo stack: constructed over a head store
and optional datadir (the constructor runs `open()`), then driven by any
interleaving of the public operations, client mutations through `top()`,
and external file-system changes. -/
inductive reachable : undo_stack → fs_state → Prop where
  | init : ∀ (head : Store) (dir : Option String) (fs : fs_state)
      (u2 : undo_stack) (fs2 : fs_state),
      (undo_stack.fresh head dir).open_op fs = (none, u2, fs2) → reachable u2 fs2
  | push_step : ∀ u fs, reachable u fs → reachable u.push fs
  | squash_step : ∀ u fs, reachable u fs → reachable u.squash fs
  | undo_step : ∀ u fs, reachable u fs → reachable u.undo fs
  | commit_step : ∀ u fs r, reachable u fs → reachable (u.commit r) fs
  | set_revision_step : ∀ u fs r, reachable u fs → reachable (u.set_revision r) fs
  | top_op_step : ∀ u fs o, reachable u fs → reachable (apply_top_op u o) fs
  | close_step : ∀ u fs, reachable u fs → reachable (u.close_op fs).1 (u.close_op fs).2
  | open_step : ∀ u fs, reachable u fs → reachable (u.open_op fs).2.1 (u.open_op fs).2.2
  | fs_step : ∀ u fs fs2, reachable u fs → reachable u fs2

theorem stack_inv_fresh (head : Store) (dir : Option String) :
    stack_inv (undo_stack.fresh head dir) :=
  ⟨rfl, by simp [undo_stack.fresh], by simp [undo_stack.fresh]⟩

theorem stack_inv_reachable (u : undo_stack) (fs : fs_state) (h : reachable u fs) :
    stack_inv u := by
  induction h with
  | init head dir fs u2 fs2 heq =>
      have := stack_inv_open (undo_stack.fresh head dir) fs (stack_inv_fresh head dir)
      rwa [heq] at this
  | push_step u fs _ ih => exact stack_inv_push u ih
  | squash_step u fs _ ih => exact stack_inv_squash u ih
  | undo_step u fs _ ih => exact stack_inv_undo u ih
  | commit_step u fs r _ ih => exact stack_inv_commit u r ih
  | set_revision_step u fs r _ ih => exact stack_inv_set_revision u r ih
  | top_op_step u fs o _ ih => exact stack_inv_apply_top_op u o ih
  | close_step u fs _ ih => exact stack_inv_close u fs ih
  | open_step u fs _ ih => exact stack_inv_open u fs ih
  | fs_step u fs fs2 _ ih => exact ih

/-- C2: the parent-chain invariant — for every index `i > 0` the layer at
index `i` has the layer at index `i-1` as its parent and the layer at
index `0` has the head store as its parent — holds in every reachable
state of the undo stack and is preserved by every operation (push, squash,
undo, commit, the revision setter, client mutations through `top()`, open
and close).  `stack_inv` states the chain through the stable session ids;
the final conjunct re-expresses it positionally. -/
theorem C2_parent_chain_invariant :
    (∀ u : undo_stack, stack_inv u →
      stack_inv u.push ∧ stack_inv u.squash ∧ stack_inv u.undo ∧
      (∀ r, stack_inv (u.commit r)) ∧ (∀ r, stack_inv (u.set_revision r)) ∧
      (∀ o, stack_inv (apply_top_op u o)) ∧
      (∀ fs, stack_inv (u.close_op fs).1) ∧
      (∀ fs, stack_inv (u.open_op fs).2.1)) ∧
    (∀ u fs, reachable u fs → stack_inv u) ∧
    (∀ u : undo_stack, stack_inv u →
      (∀ h0 : 0 < u.m_sessions.length,
        (u.m_sessions.get ⟨0, h0⟩).parent = some (Sum.inl ())) ∧
      (∀ i, ∀ h : i + 1 < u.m_sessions.length,
        (u.m_sessions.get ⟨i + 1, h⟩).parent =
          some (Sum.inr (u.m_sessions.get ⟨i, by omega⟩).sid))) := by
  refine ⟨?_, stack_inv_reachable, ?_⟩
  · intro u h
    exact ⟨stack_inv_push u h, stack_inv_squash u h, stack_inv_undo u h,
      fun r => stack_inv_commit u r h, fun r => stack_inv_set_revision u r h,
      fun o => stack_inv_apply_top_op u o h,
      fun fs => stack_inv_close u fs h, fun fs => stack_inv_open u fs h⟩
  · intro u h
    obtain ⟨g0, gs⟩ := chain_skel_get (u.m_sessions.map session_skel) (some (Sum.inl ())) h.1
    constructor
    · intro h0
      have hlen : 0 < (u.m_sessions.map session_skel).length := by simpa using h0
      have := g0 hlen
      rwa [List.get_map] at this
    · intro i hi
      have hlen : i + 1 < (u.m_sessions.map session_skel).length := by simpa using hi
      have := gs i hlen
      rwa [List.get_map, List.get_map] at this

/-- Witness for C2 at a concrete input. -/
theorem C2_parent_chain_invariant_witness :
    stack_inv ((undo_stack.fresh (fun _ => none) none).push) :=
  (C2_parent_chain_invariant.1 (undo_stack.fresh (fun _ => none) none)
    (stack_inv_fresh (fun _ => none) none)).1

/- ------------------------------------------------------------------ -/
/- C4: persistence round trip.                                         -/
/- ------------------------------------------------------------------ -/

theorem find?_filter_ne (W : List (Key × Val)) (k k0 : Key) (hk : k ≠ k0) :
    (W.filter (fun p => p.1 != k0)).find? (fun p => p.1 == k) =
      W.find? (fun p => p.1 == k) := by
  induction W with
  | nil => rfl
  | cons q W ih =>
      by_cases hq : q.1 = k0
      · rw [List.filter_cons_of_neg (by simp [hq]), ih,
          List.find?_cons_of_neg _
            (by simp only [hq, beq_iff_eq]; exact fun hc => hk hc.symm)]
      · by_cases hqk : q.1 = k
        · rw [List.filter_cons_of_pos (by simp [hq]),
            List.find?_cons_of_pos _ (by simp [hqk]),
            List.find?_cons_of_pos _ (by simp [hqk])]
        · rw [List.filter_cons_of_pos (by simp [hq]),
            List.find?_cons_of_neg _ (by simp [hqk]),
            List.find?_cons_of_neg _ (by simp [hqk]), ih]

theorem find?_filter_self (W : List (Key × Val)) (k0 : Key) :
    (W.filter (fun p => p.1 != k0)).find? (fun p => p.1 == k0) = none := by
  rw [List.find?_eq_none]
  intro p hp
  have := List.of_mem_filter hp
  simp only [bne_iff_ne, ne_eq] at this
  simp [this]

theorem mem_filter_ne (D : List Key) (k k0 : Key) (hk : k ≠ k0) :
    (k ∈ D.filter (fun k2 => k2 != k0)) ↔ k ∈ D := by
  rw [List.mem_filter]
  simp [hk]

theorem session_local_write (a : session_type) (k0 : Key) (v : Val) (k : Key) :
    session_local (session_write a k0 v) k =
      if k = k0 then some (some v) else session_local a k := by
  by_cases hk : k = k0
  · subst hk
    rw [if_pos rfl, session_local, session_write]
    simp only
    rw [List.find?_cons_of_pos _ (by simp)]
  · rw [if_neg hk, session_local, session_local, session_write]
    simp only
    rw [List.find?_cons_of_neg _
        (by simp only [beq_iff_eq]; exact fun hc => hk hc.symm),
      find?_filter_ne _ _ _ hk]
    rcases h : a.writes.find? (fun p => p.1 == k) with _ | p
    · simp only [h]
      by_cases hm : k ∈ a.deletes
      · rw [if_pos hm, if_pos ((mem_filter_ne _ _ _ hk).mpr hm)]
      · rw [if_neg hm, if_neg (fun hc => hm ((mem_filter_ne _ _ _ hk).mp hc))]
    · simp only [h]

theorem session_local_erase (a : session_type) (k0 : Key) (k : Key) :
    session_local (session_erase a k0) k =
      if k = k0 then some none else session_local a k := by
  by_cases hk : k = k0
  · subst hk
    rw [if_pos rfl, session_local, session_erase]
    simp only
    rw [find?_filter_self]
    simp
  · rw [if_neg hk, session_local, session_local, session_erase]
    simp only
    rw [find?_filter_ne _ _ _ hk]
    rcases h : a.writes.find? (fun p => p.1 == k) with _ | p
    · simp only [h]
      have hmem : (k ∈ k0 :: a.deletes.filter (fun k2 => k2 != k0)) ↔ k ∈ a.deletes := by
        rw [List.mem_cons]
        constructor
        · rintro (h1 | h1)
          · exact absurd h1 hk
          · exact (mem_filter_ne _ _ _ hk).mp h1
        · intro h1
          exact Or.inr ((mem_filter_ne _ _ _ hk).mpr h1)
      by_cases hm : k ∈ a.deletes
      · rw [if_pos hm, if_pos (hmem.mpr hm)]
      · rw [if_neg hm, if_neg (fun hc => hm (hmem.mp hc))]
    · simp only [h]

theorem session_local_foldl_erase (D : List Key) :
    ∀ (a : session_type) (k : Key),
      session_local (D.foldl session_erase a) k =
        if k ∈ D then some none else session_local a k := by
  induction D with
  | nil => intro a k; simp
  | cons k0 D ih =>
      intro a k
      rw [List.foldl_cons, ih, session_local_erase]
      by_cases h1 : k ∈ D
      · simp [h1]
      · by_cases h2 : k = k0
        · simp [h1, h2]
        · simp [h1, h2]

theorem session_local_foldl_write (W : List (Key × Val)) :
    ∀ (a : session_type) (k : Key), (W.map Prod.fst).Nodup →
      session_local (W.foldl (fun x p => session_write x p.1 p.2) a) k =
        match W.find? (fun p => p.1 == k) with
        | some p => some (some p.2)
        | none => session_local a k := by
  induction W with
  | nil => intro a k _; rfl
  | cons q W ih =>
      intro a k hnd
      have hnd2 : (W.map Prod.fst).Nodup := by
        simp only [List.map_cons, List.nodup_cons] at hnd
        exact hnd.2
      have hq1 : q.1 ∉ W.map Prod.fst := by
        simp only [List.map_cons, List.nodup_cons] at hnd
        exact hnd.1
      rw [List.foldl_cons, ih _ _ hnd2]
      by_cases hk : q.1 = k
      · rw [List.find?_cons_of_pos _ (by simp [hk])]
        have hfind : W.find? (fun p => p.1 == k) = none := by
          rw [List.find?_eq_none]
          intro p hp
          simp only [beq_iff_eq]
          intro hpk
          exact hq1 (by rw [hk, ← hpk]; exact List.mem_map_of_mem Prod.fst hp)
        rw [hfind]
        simp only
        rw [session_local_write, if_pos hk.symm]
      · rw [List.find?_cons_of_neg _ (by simp [hk])]
        rcases h : W.find? (fun p => p.1 == k) with _ | p
        · simp only [h]
          rw [session_local_write, if_neg (fun hc => hk hc.symm)]
        · simp only [h]

theorem find?_unique_nodup (W : List (Key × Val)) (p : Key × Val)
    (hnd : (W.map Prod.fst).Nodup) (hp : p ∈ W) :
    W.find? (fun q => q.1 == p.1) = some p := by
  induction W with
  | nil => simp at hp
  | cons q W ih =>
      have hnd2 : (W.map Prod.fst).Nodup := by
        simp only [List.map_cons, List.nodup_cons] at hnd
        exact hnd.2
      have hq1 : q.1 ∉ W.map Prod.fst := by
        simp only [List.map_cons, List.nodup_cons] at hnd
        exact hnd.1
      rcases List.mem_cons.mp hp with h1 | h1
      · subst h1
        rw [List.find?_cons_of_pos _ (by simp)]
      · have hne : q.1 ≠ p.1 := by
          intro hc
          exact hq1 (hc ▸ List.mem_map_of_mem Prod.fst h1)
        rw [List.find?_cons_of_neg _ (by simp [hne]), ih hnd2 h1]

/-- Well-formedness of a layer's local diff, as produced by any sequence
of `write`/`erase` operations: pending-write keys are distinct and no key
is both pending-written and pending-erased. -/
def sessWF (s : session_type) : Prop :=
  (s.writes.map Prod.fst).Nodup ∧ ∀ p ∈ s.writes, p.1 ∉ s.deletes

instance (s : session_type) : Decidable (sessWF s) :=
  inferInstanceAs (Decidable ((s.writes.map Prod.fst).Nodup ∧ ∀ p ∈ s.writes, p.1 ∉ s.deletes))

theorem filterMap_eq_self_of {α : Type} (l : List α) (f : α → Option α)
    (h : ∀ a ∈ l, f a = some a) : l.filterMap f = l := by
  induction l with
  | nil => rfl
  | cons a l ih =>
      rw [List.filterMap_cons, h a (by simp)]
      rw [ih (fun x hx => h x (by simp [hx]))]

theorem serialize_session_of_wf (head : Store) (s : session_type) (h : sessWF s) :
    serialize_session head s =
      { updated_count := s.writes.length, updated := s.writes,
        deleted_count := s.deletes.length, deleted := s.deletes } := by
  rw [serialize_session]
  have hupd : (updated_keys s).filterMap (fun k =>
      match front_session_read head s k with
      | some v => some (k, v)
      | none => none) = s.writes := by
    rw [updated_keys, List.filterMap_map]
    apply filterMap_eq_self_of
    intro p hp
    have hfind : s.writes.find? (fun q => q.1 == p.1) = some p :=
      find?_unique_nodup s.writes p h.1 hp
    show (match front_session_read head s p.1 with
      | some v => some (p.1, v)
      | none => none) = some p
    rw [front_session_read, session_local, hfind]
  rw [hupd]
  simp [updated_keys, deleted_keys]

theorem replay_session_local (head : Store) (s : session_type) (h : sessWF s)
    (p : Option (Sum Unit Nat)) (i : Nat) :
    ∀ k, session_local (replay_session p i (serialize_session head s)) k =
      session_local s k := by
  intro k
  rw [serialize_session_of_wf head s h, replay_session]
  simp only [List.take_length]
  rw [session_local_foldl_erase, session_local_foldl_write _ _ _ h.1]
  have hemp : session_local { parent := p, sid := i, writes := [], deletes := [] } k = none := by
    rw [session_local]
    simp
  rw [hemp]
  rcases hf : s.writes.find? (fun q => q.1 == k) with _ | q
  · conv_rhs => rw [session_local]
    simp only [hf]
  · conv_rhs => rw [session_local]
    simp only [hf]
    have hq1 : q.1 = k := by simpa using List.find?_some hf
    have hm : k ∉ s.deletes := by
      rw [← hq1]
      exact h.2 q (List.mem_of_find?_eq_some hf)
    rw [if_neg hm]

/-- Observational equivalence of two layers: identical local resolution of
every key. -/
def eqloc (a b : session_type) : Prop := ∀ k, session_local a k = session_local b k

theorem forall2_eqloc_refl : ∀ l : List session_type, List.Forall₂ eqloc l l := by
  intro l
  induction l with
  | nil => exact List.Forall₂.nil
  | cons a l ih => exact List.Forall₂.cons (fun k => rfl) ih

theorem forall2_eqloc_append {l1 l2 r1 r2 : List session_type}
    (h1 : List.Forall₂ eqloc l1 l2) (h2 : List.Forall₂ eqloc r1 r2) :
    List.Forall₂ eqloc (l1 ++ r1) (l2 ++ r2) := by
  induction h1 with
  | nil => exact h2
  | cons hab h ih => exact List.Forall₂.cons hab ih

theorem forall2_eqloc_take {l1 l2 : List session_type}
    (h : List.Forall₂ eqloc l1 l2) : ∀ n, List.Forall₂ eqloc (l1.take n) (l2.take n) := by
  induction h with
  | nil => intro n; simp
  | cons hab h ih =>
      intro n
      cases n with
      | zero => exact List.Forall₂.nil
      | succ m => exact List.Forall₂.cons hab (ih m)

theorem fold_read_congr {l1 l2 : List session_type}
    (h : List.Forall₂ eqloc l1 l2) (k : Key) :
    ∀ b : Option Val,
      l1.foldl (fun acc s => match session_local s k with | some r => r | none => acc) b =
      l2.foldl (fun acc s => match session_local s k with | some r => r | none => acc) b := by
  induction h with
  | nil => intro b; rfl
  | cons hab h ih =>
      intro b
      rw [List.foldl_cons, List.foldl_cons]
      rw [hab k]
      exact ih _

theorem chain_read_congr {l1 l2 : List session_type}
    (h : List.Forall₂ eqloc l1 l2) (head : Store) (k : Key) :
    chain_read head l1 k = chain_read head l2 k := by
  rw [chain_read, chain_read]
  exact fold_read_congr h k _

theorem replay_all_fields (ds : List file_session) :
    ∀ u : undo_stack, (replay_all u ds).m_revision = u.m_revision ∧
      (replay_all u ds).m_head = u.m_head ∧
      (replay_all u ds).m_datadir = u.m_datadir := by
  induction ds with
  | nil => intro u; exact ⟨rfl, rfl, rfl⟩
  | cons d ds ih =>
      intro u
      rw [replay_all, List.foldl_cons]
      exact ih _

theorem replay_serialized (head : Store) (l : List session_type) :
    ∀ (acc : undo_stack) (L : List session_type),
      (∀ s ∈ l, sessWF s) → List.Forall₂ eqloc acc.m_sessions L →
      List.Forall₂ eqloc (replay_all acc (l.map (serialize_session head))).m_sessions
        (L ++ l) := by
  induction l with
  | nil =>
      intro acc L _ hF
      simpa using hF
  | cons s rest ih =>
      intro acc L hwf hF
      rw [List.map_cons, replay_all, List.foldl_cons]
      have hwf2 : ∀ x ∈ rest, sessWF x := fun x hx => hwf x (by simp [hx])
      have hstep : List.Forall₂ eqloc
          (acc.m_sessions ++ [replay_session
            (match acc.m_sessions.getLast? with
             | none => some (Sum.inl ())
             | some b => some (Sum.inr b.sid)) acc.m_next_id (serialize_session head s)])
          (L ++ [s]) :=
        forall2_eqloc_append hF
          (List.Forall₂.cons (replay_session_local head s (hwf s (by simp)) _ _)
            List.Forall₂.nil)
      have hrec := ih
        { acc with
            m_sessions := acc.m_sessions ++ [replay_session
              (match acc.m_sessions.getLast? with
               | none => some (Sum.inl ())
               | some b => some (Sum.inr b.sid)) acc.m_next_id (serialize_session head s)],
            m_next_id := acc.m_next_id + 1 }
        (L ++ [s]) hwf2 hstep
      rw [List.append_assoc, List.singleton_append] at hrec
      exact hrec

theorem close_op_with_dir (u : undo_stack) (fs : fs_state) (d : String)
    (hd : u.m_datadir = some d) (hdir : fs.dir_exists = true) :
    u.close_op fs =
      ({ u with m_sessions := [] },
       { fs with file := some ({
             magic := undo_stack_magic_number,
             version := undo_stack_max_supported_version,
             file_revision := u.m_revision,
             session_count := u.m_sessions.length,
             file_sessions := u.m_sessions.map (serialize_session u.m_head) } : undo_file) }) := by
  rw [undo_stack.close_op]
  simp only [hd]
  rw [if_pos hdir]

theorem set_revision_fresh (head : Store) (dd : Option String) (r : Int) (hr : 0 ≤ r) :
    (undo_stack.fresh head dd).set_revision r =
      { undo_stack.fresh head dd with m_revision := r } := by
  rw [undo_stack.set_revision]
  rw [if_neg (by simp [undo_stack.fresh])]
  by_cases h0 : r ≤ (undo_stack.fresh head dd).m_revision
  · rw [if_pos h0]
    have hr0 : r = 0 := by
      have : (undo_stack.fresh head dd).m_revision = 0 := rfl
      omega
    subst hr0
    rfl
  · rw [if_neg h0]

theorem open_op_success (head : Store) (d : String) (fs : fs_state) (f : undo_file)
    (hf : fs.file = some f) (hm : f.magic = undo_stack_magic_number)
    (hv : f.version = 1) :
    (undo_stack.fresh head (some d)).open_op fs =
      (none,
       replay_all ((undo_stack.fresh head (some d)).set_revision f.file_revision)
         (f.file_sessions.take f.session_count),
       { dir_exists := true, file := none }) := by
  rw [undo_stack.open_op]
  have hdd : (undo_stack.fresh head (some d)).m_datadir = some d := rfl
  simp only [hdd]
  simp only [hf]
  rw [if_neg (by simp [hm])]
  rw [if_neg (by rw [hv]; decide)]

/-- The stack and file system obtained by `close()` followed by
constructing a fresh stack over the same head store and directory (whose
constructor runs `open()`). -/
def reopened (u : undo_stack) (fs : fs_state) (d : String) :
    Option open_error × undo_stack × fs_state :=
  (undo_stack.fresh u.m_head (some d)).open_op (u.close_op fs).2

/-- C4: persistence round trip — close a stack with N well-formed pending
layers, construct a new stack over the same head store and directory (its
constructor runs `open()`): no error is raised, `revision()` matches,
`size() == N`, the reads observable through `top()`, `bottom()` and every
intermediate layer are reproduced for every key, and the persistence file
no longer exists.  `sessWF` is the diff shape any sequence of write/erase
operations produces; `0 ≤ m_revision` holds in every reachable state
(revision at least the pending count). -/
theorem C4_persistence_round_trip (u : undo_stack) (fs : fs_state) (d : String)
    (hd : u.m_datadir = some d) (hdir : fs.dir_exists = true)
    (hrev : 0 ≤ u.m_revision) (hwf : ∀ s ∈ u.m_sessions, sessWF s) :
    (reopened u fs d).1 = none ∧
    (reopened u fs d).2.1.revision = u.m_revision ∧
    (reopened u fs d).2.1.size = u.size ∧
    (∀ k, (reopened u fs d).2.1.top_read k = u.top_read k) ∧
    (∀ k, (reopened u fs d).2.1.bottom_read k = u.bottom_read k) ∧
    (∀ i k, (reopened u fs d).2.1.read_at i k = u.read_at i k) ∧
    (reopened u fs d).2.2.file = none := by
  have hclose := close_op_with_dir u fs d hd hdir
  have hfs2 : (u.close_op fs).2 = { fs with file := some ({
      magic := undo_stack_magic_number,
      version := undo_stack_max_supported_version,
      file_revision := u.m_revision,
      session_count := u.m_sessions.length,
      file_sessions := u.m_sessions.map (serialize_session u.m_head) } : undo_file) } :=
    congrArg Prod.snd hclose
  have hkey : reopened u fs d =
      (none,
       replay_all ((undo_stack.fresh u.m_head (some d)).set_revision u.m_revision)
         ((u.m_sessions.map (serialize_session u.m_head)).take u.m_sessions.length),
       { dir_exists := true, file := none }) := by
    rw [reopened]
    rw [open_op_success u.m_head d ((u.close_op fs).2) ({
      magic := undo_stack_magic_number,
      version := undo_stack_max_supported_version,
      file_revision := u.m_revision,
      session_count := u.m_sessions.length,
      file_sessions := u.m_sessions.map (serialize_session u.m_head) } : undo_file)
      (by rw [hfs2]) rfl rfl]
  have htake : (u.m_sessions.map (serialize_session u.m_head)).take u.m_sessions.length =
      u.m_sessions.map (serialize_session u.m_head) := by
    rw [show u.m_sessions.length = (u.m_sessions.map (serialize_session u.m_head)).length
      from (List.length_map _ _).symm]
    exact List.take_length _
  have hsetr := set_revision_fresh u.m_head (some d) u.m_revision hrev
  have hkey2 : (reopened u fs d).2.1 =
      replay_all { undo_stack.fresh u.m_head (some d) with m_revision := u.m_revision }
        (u.m_sessions.map (serialize_session u.m_head)) := by
    rw [hkey, htake, hsetr]
  have hfields := replay_all_fields (u.m_sessions.map (serialize_session u.m_head))
    { undo_stack.fresh u.m_head (some d) with m_revision := u.m_revision }
  have hF2 : List.Forall₂ eqloc (reopened u fs d).2.1.m_sessions u.m_sessions := by
    rw [hkey2]
    have := replay_serialized u.m_head u.m_sessions
      { undo_stack.fresh u.m_head (some d) with m_revision := u.m_revision }
      [] hwf List.Forall₂.nil
    simpa using this
  have hhead : (reopened u fs d).2.1.m_head = u.m_head := by
    rw [hkey2]
    exact hfields.2.1
  refine ⟨?_, ?_, ?_, ?_, ?_, ?_, ?_⟩
  · rw [hkey]
  · rw [undo_stack.revision, hkey2]
    exact hfields.1
  · rw [undo_stack.size, undo_stack.size]
    exact hF2.length_eq
  · intro k
    rw [undo_stack.top_read, undo_stack.top_read, hhead]
    exact chain_read_congr hF2 u.m_head k
  · intro k
    rw [undo_stack.bottom_read, undo_stack.bottom_read, hhead]
    exact chain_read_congr (forall2_eqloc_take hF2 1) u.m_head k
  · intro i k
    rw [undo_stack.read_at, undo_stack.read_at, hhead]
    exact chain_read_congr (forall2_eqloc_take hF2 (i + 1)) u.m_head k
  · rw [hkey]

/-- A concrete one-layer stack used to witness the persistence round
trip. -/
def c4_sample : undo_stack :=
  { m_revision := 1
    m_head := fun _ => none
    m_sessions := [{ parent := some (Sum.inl ()), sid := 0, writes := [(1, 2)], deletes := [3] }]
    m_next_id := 1
    m_datadir := some "data" }

/-- Witness for C4 at a concrete input. -/
theorem C4_persistence_round_trip_witness :
    (reopened c4_sample { dir_exists := true, file := none } "data").1 = none :=
  (C4_persistence_round_trip c4_sample { dir_exists := true, file := none } "data"
    rfl rfl (by decide) (by decide)).1
